import Mathlib

/-!
Verification of the Remimu regex engine interface used by Yori's wininfo
command.  The repository ships the engine's declarations
(`src/lib/remimu.hxx`), a build wrapper (`src/lib/remimu.cxx`) and the
wininfo driver (`src/libwin/text.c`); the single-header engine body itself
is not part of the sources, so the compiler (`regex_parse`) and the
backtracking matcher (`regex_match`) are modelled from the specification,
while the driver loops are embedded from the C source.

Bytes are modelled as natural numbers below 256; C strings become
`List Nat` with the null terminator represented by the end of the list
(reads past the end return 0, the terminator byte).
-/

set_option maxHeartbeats 1000000
set_option maxRecDepth 8000

namespace Remimu

/-- One compiled instruction, embedded from the declaration of
`_RegexToken` in `src/lib/remimu.hxx`: a `kind` tag, `mode` bit flags,
16-bit quantifier bounds `count_lo` and `count_hi` (where `count_hi = 0`
means no upper limit), a 256-bit byte-class `mask` stored as sixteen
16-bit words (repurposed on group tokens to carry the group number), and
a signed `pair_offset` linking a token to its structural partner. -/
structure Token where
  kind : Nat
  mode : Nat
  count_lo : Nat
  count_hi : Nat
  mask : List Nat
  pair_offset : Int
  deriving Repr, DecidableEq

/-- Default token value (uninitialized-buffer stand-in). -/
def dtok : Token := ⟨0, 0, 0, 0, [], 0⟩

instance : Inhabited Token := ⟨dtok⟩

/-- Modelled from the spec: token kind for a literal or byte-class
instruction (the spec's "literal/class" tag). -/
def KIND_NORMAL : Nat := 0

/-- Modelled from the spec: token kind for a group-open instruction. -/
def KIND_OPEN : Nat := 1

/-- Modelled from the spec: token kind for a group-close instruction. -/
def KIND_CLOSE : Nat := 2

/-- Modelled from the spec: token kind for an alternation branch. -/
def KIND_OR : Nat := 3

/-- Modelled from the spec: token kind for the start anchor. -/
def KIND_CARET : Nat := 4

/-- Modelled from the spec: token kind for the end anchor. -/
def KIND_DOLLAR : Nat := 5

/-- Modelled from the spec: the end-of-program sentinel kind. -/
def KIND_END : Nat := 6

/-- Modelled from the spec: mode bit marking a lazy quantifier (the
exact bit assignment is not fixed by the available documentation). -/
def MODE_LAZY : Nat := 1

/-- Modelled from the spec: mode bit marking a negated byte class;
negation is expressed by this flag, never by inverting stored bits. -/
def MODE_INVERT : Nat := 2

/-- The all-zero 256-bit mask, as sixteen 16-bit words. -/
def maskEmpty : List Nat := List.replicate 16 0

/-- The all-ones 256-bit mask ("any byte"). -/
def maskFull : List Nat := List.replicate 16 65535

/-- Test bit `b` of a 256-bit mask: word `b / 16`, bit `b % 16`. -/
def maskTest (m : List Nat) (b : Nat) : Bool :=
  Nat.testBit (m.getD (b / 16) 0) (b % 16)

/-- Set bit `b` of a 256-bit mask. -/
def maskSet (m : List Nat) (b : Nat) : List Nat :=
  m.set (b / 16) (m.getD (b / 16) 0 ||| 2 ^ (b % 16))

/-- Set `cnt` consecutive bits starting at `lo`. -/
def maskAddRun (m : List Nat) (lo : Nat) : Nat → List Nat
  | 0 => m
  | cnt + 1 => maskAddRun (maskSet m lo) (lo + 1) cnt

/-- Set all bits in the inclusive range `lo`..`hi`. -/
def maskRange (m : List Nat) (lo hi : Nat) : List Nat :=
  maskAddRun m lo (hi + 1 - lo)

/-- Bitwise union of two 256-bit masks. -/
def maskUnion (a b : List Nat) : List Nat :=
  (List.range 16).map (fun i => a.getD i 0 ||| b.getD i 0)

/-- Mask of the ASCII digits (the `d` class escape). -/
def maskDigits : List Nat := maskRange maskEmpty 48 57

/-- Mask of word characters: letters, digits and underscore. -/
def maskWord : List Nat :=
  maskSet (maskRange (maskRange (maskRange maskEmpty 48 57) 65 90) 97 122) 95

/-- Mask of whitespace bytes: tab through carriage return, and space. -/
def maskSpace : List Nat := maskSet (maskRange maskEmpty 9 13) 32

mutual
/-- Modelled from the spec: a structured view of one quantifiable unit of
a compiled Program — a byte class (with negation flag), a group of
alternative branches carrying its capture index, or an anchor.  The
matcher rebuilds this view from the flat token array before matching. -/
inductive RNode where
  | cls (mask : List Nat) (neg : Bool)
  | grp (alts : List (List RItem)) (cap : Nat)
  | bol
  | eol

/-- Modelled from the spec: a unit together with its attached quantifier:
required repeats `lo`, optional upper bound `hi` (`none` means unbounded,
the image of `count_hi = 0`), and the lazy flag. -/
inductive RItem where
  | mk (nd : RNode) (lo : Nat) (hi : Option Nat) (lz : Bool)
end

/-- Translate a token's `count_hi` field to the structured bound:
0 is the sentinel for "no upper limit". -/
def tokHi (t : Token) : Option Nat :=
  if t.count_hi = 0 then none else some t.count_hi

/-- Modelled from the spec: rebuild the structured Program from the flat
token array, reading tokens left to right with bounds-checked recursion;
any structural violation (unbalanced group tokens, unknown kind) makes
the whole rebuild fail, which the matcher reports as the defensive
invalid-program outcome.  An end-of-program sentinel token terminates the
scan exactly like the end of the array. -/
def reScan : Nat → List Token → List RItem → List (List RItem) →
    Option (List (List RItem) × List Token × Bool)
  | 0, _, _, _ => none
  | _ + 1, [], accS, accA => some (accA ++ [accS.reverse], [], false)
  | fuel + 1, t :: rest, accS, accA =>
    if t.kind = KIND_END then some (accA ++ [accS.reverse], rest, false)
    else if t.kind = KIND_NORMAL then
      reScan fuel rest
        (RItem.mk (RNode.cls t.mask (t.mode &&& MODE_INVERT ≠ 0))
          t.count_lo (tokHi t) (t.mode &&& MODE_LAZY ≠ 0) :: accS) accA
    else if t.kind = KIND_CARET then
      reScan fuel rest (RItem.mk RNode.bol t.count_lo (tokHi t) false :: accS) accA
    else if t.kind = KIND_DOLLAR then
      reScan fuel rest (RItem.mk RNode.eol t.count_lo (tokHi t) false :: accS) accA
    else if t.kind = KIND_OPEN then
      match reScan fuel rest [] [] with
      | some (g, rest', true) =>
        reScan fuel rest'
          (RItem.mk (RNode.grp g (t.mask.getD 0 0)) t.count_lo (tokHi t)
            (t.mode &&& MODE_LAZY ≠ 0) :: accS) accA
      | _ => none
    else if t.kind = KIND_CLOSE then some (accA ++ [accS.reverse], rest, true)
    else if t.kind = KIND_OR then reScan fuel rest [] (accA ++ [accS.reverse])
    else none

/-- Rebuild a whole Program; fails (invalid program) when a group is
left open or a stray close token appears at top level. -/
def reconstruct (toks : List Token) : Option (List (List RItem)) :=
  match reScan (2 * toks.length + 2) toks [] [] with
  | some (alt, _, false) => some alt
  | _ => none

/-- Control outcome of one bounded backtracking search: a successful end
position, a proven no-match, or an exhausted budget. -/
inductive Ctl where
  | found (e : Nat)
  | noMatch
  | exhausted
  deriving Repr, DecidableEq

/-- The caller-owned capture arrays: positions and spans, indexed by
capture slot. -/
abbrev CapSt : Type := (Nat → Int) × (Nat → Int)

/-- A matcher result: the control outcome together with the capture
arrays as left behind by the explored attempts (possibly partially
written even on failure). -/
abbrev MRes : Type := Ctl × CapSt

/-- A backtracking continuation: what the rest of the pattern does from
a given text position and capture state. -/
abbrev MCont : Type := Nat → CapSt → MRes

/-- Backtracking choice: keep the first branch's result unless it is a
proven no-match, in which case try the alternative from the capture
state the first branch left behind; an exhausted budget aborts the
whole search. -/
def orR (r : MRes) (f : CapSt → MRes) : MRes :=
  match r with
  | (Ctl.noMatch, cm) => f cm
  | other => other

/-- Write one capture slot (position and span), but only when the slot
index is below the caller's declared capture-slot count. -/
def writeCap (slots g st len : Nat) (cm : CapSt) : CapSt :=
  if g < slots then
    (fun i => if i = g then (st : Int) else cm.1 i,
     fun i => if i = g then (len : Int) else cm.2 i)
  else cm

/-- One pending obligation of the backtracking search: match a unit, an
alternative list, a sequence, a quantified item, or a repetition with
`needed` mandatory repeats and `ext` optional ones (`none` unbounded). -/
inductive MJob where
  | nd (n : RNode)
  | alts (a : List (List RItem))
  | seq (s : List RItem)
  | item (i : RItem)
  | rep (n : RNode) (needed : Nat) (ext : Option Nat) (lz : Bool)

/-- Modelled from the spec: the backtracking search itself, in
continuation-passing style.  A class consumes exactly one byte when it
belongs to the (possibly negated) class; anchors consume nothing and
test the position; a group runs its alternatives and, on the successful
path, records the capture span before continuing; alternation tries a
later branch only when the earlier ones produce a proven no-match; a
quantified unit performs its mandatory repeats and then, greedily or
lazily, its optional ones, where an unbounded optional repeat that
consumed no text is not re-entered.  Every recursive step spends one
unit of the recursion budget, and a zero budget yields the
resource-exhaustion outcome, which aborts the whole search.  A bounded
repeat range whose upper bound is below the lower bound matches nothing
(defensive, mirroring the matcher's refusal to trust a malformed
Program). -/
def mRun (text : List Nat) (slots : Nat) : Nat → MJob → Nat → CapSt → MCont → MRes
  | 0, _, _, cm, _ => (Ctl.exhausted, cm)
  | fuel + 1, job, p, cm, k =>
    match job with
    | .nd (RNode.cls m neg) =>
      if p < text.length ∧ maskTest m (text.getD p 0) ≠ neg then k (p + 1) cm
      else (Ctl.noMatch, cm)
    | .nd RNode.bol => if p = 0 then k p cm else (Ctl.noMatch, cm)
    | .nd RNode.eol => if p = text.length then k p cm else (Ctl.noMatch, cm)
    | .nd (RNode.grp g c) =>
      mRun text slots fuel (.alts g) p cm
        (fun q cm' => k q (writeCap slots c p (q - p) cm'))
    | .alts [] => (Ctl.noMatch, cm)
    | .alts (s :: rest) =>
      orR (mRun text slots fuel (.seq s) p cm k)
        (fun cm' => mRun text slots fuel (.alts rest) p cm' k)
    | .seq [] => k p cm
    | .seq (i :: s) =>
      mRun text slots fuel (.item i) p cm
        (fun q cm' => mRun text slots fuel (.seq s) q cm' k)
    | .item (RItem.mk nd lo hi lz) =>
      match hi with
      | some h =>
        if h < lo then (Ctl.noMatch, cm)
        else mRun text slots fuel (.rep nd lo (some (h - lo)) lz) p cm k
      | none => mRun text slots fuel (.rep nd lo none lz) p cm k
    | .rep nd (lo + 1) ext lz =>
      mRun text slots fuel (.nd nd) p cm
        (fun q cm' => mRun text slots fuel (.rep nd lo ext lz) q cm' k)
    | .rep _ 0 (some 0) _ => k p cm
    | .rep nd 0 (some (e + 1)) lz =>
      if lz then
        orR (k p cm) (fun cm' =>
          mRun text slots fuel (.nd nd) p cm' (fun q cm'' =>
            mRun text slots fuel (.rep nd 0 (some e) lz) q cm'' k))
      else
        orR (mRun text slots fuel (.nd nd) p cm (fun q cm' =>
          mRun text slots fuel (.rep nd 0 (some e) lz) q cm' k))
          (fun cm' => k p cm')
    | .rep nd 0 none lz =>
      if lz then
        orR (k p cm) (fun cm' =>
          mRun text slots fuel (.nd nd) p cm' (fun q cm'' =>
            if p < q then mRun text slots fuel (.rep nd 0 none lz) q cm'' k
            else (Ctl.noMatch, cm'')))
      else
        orR (mRun text slots fuel (.nd nd) p cm (fun q cm' =>
          if p < q then mRun text slots fuel (.rep nd 0 none lz) q cm' k
          else (Ctl.noMatch, cm')))
          (fun cm' => k p cm')

/-- Modelled from the spec: the matcher's fixed internal step/recursion
budget; pathological searches that would exceed it are cut off with the
resource-exhaustion outcome. -/
def REMIMU_BUDGET : Nat := 256

/-- Modelled from the spec: `regex_match` with its full observable
state — the returned length or error code, and the capture arrays
after the call (which may hold partial data on failure).  The flat token
Program is first rebuilt into its structured form; failure to rebuild is
the defensive invalid-program outcome (-3).  Otherwise the backtracking
search runs from `start_i` under the fixed budget: a winning path
returns its match length (≥ 0), a fully explored failing search returns
-1, and an exceeded budget returns -2. -/
def regex_match_full (tokens : List Token) (text : List Nat) (start_i : Nat)
    (cap_slots : Nat) (cap_pos cap_span : Nat → Int) : Int × CapSt :=
  match reconstruct tokens with
  | none => (-3, (cap_pos, cap_span))
  | some alt =>
    match mRun text cap_slots REMIMU_BUDGET (.alts alt) start_i (cap_pos, cap_span)
        (fun q cm => (Ctl.found q, cm)) with
    | (Ctl.found e, cm) => ((e : Int) - (start_i : Int), cm)
    | (Ctl.noMatch, cm) => (-1, cm)
    | (Ctl.exhausted, cm) => (-2, cm)

/-- The return value of `regex_match`, as declared in
`src/lib/remimu.hxx`: the match length if the text at `start_i` starts
with a regex match, -1 for no match, -2 when the matcher runs out of
resources, -3 when the token Program is invalid. -/
def regex_match (tokens : List Token) (text : List Nat) (start_i : Nat)
    (cap_slots : Nat) (cap_pos cap_span : Nat → Int) : Int :=
  (regex_match_full tokens text start_i cap_slots cap_pos cap_span).1

/-- The grammatical sort a derivation of the declarative match relation
speaks about: a unit, a quantified item, a `k`-fold repetition of a
unit, a sequence, or an alternative list. -/
inductive Shape where
  | nd (n : RNode)
  | it (i : RItem)
  | pw (n : RNode) (k : Nat)
  | sq (s : List RItem)
  | al (a : List (List RItem))

/-- Does the repeat count `k` respect an optional upper bound? -/
def hiOk : Option Nat → Nat → Prop
  | none, _ => True
  | some m, k => k ≤ m

/-- The declarative (backtracking-free) matching relation on the
structured Program: `Sem text sh p q` says the fragment `sh` can match
the bytes of `text` from position `p` up to (exclusive) position `q`.
A class consumes one byte in the (possibly negated) mask; anchors match
the empty string at the text boundaries; a group matches through any of
its alternatives; a quantified item matches as some `k`-fold repetition
with `k` within its bounds; sequences concatenate; an alternative list
matches through any branch.  This relation is the reference meaning of
a Program against which the budgeted backtracking matcher is judged. -/
inductive Sem (text : List Nat) : Shape → Nat → Nat → Prop where
  | cls {m : List Nat} {neg : Bool} {p : Nat} (h1 : p < text.length)
      (h2 : maskTest m (text.getD p 0) ≠ neg) :
      Sem text (.nd (RNode.cls m neg)) p (p + 1)
  | bol : Sem text (.nd RNode.bol) 0 0
  | eol : Sem text (.nd RNode.eol) text.length text.length
  | grp {g : List (List RItem)} {c p q : Nat} (h : Sem text (.al g) p q) :
      Sem text (.nd (RNode.grp g c)) p q
  | powZ {n : RNode} {p : Nat} : Sem text (.pw n 0) p p
  | powS {n : RNode} {k p r q : Nat} (h1 : Sem text (.nd n) p r)
      (h2 : Sem text (.pw n k) r q) : Sem text (.pw n (k + 1)) p q
  | item {n : RNode} {lo : Nat} {hi : Option Nat} {lz : Bool} {k p q : Nat}
      (h1 : lo ≤ k) (h2 : hiOk hi k) (h3 : Sem text (.pw n k) p q) :
      Sem text (.it (RItem.mk n lo hi lz)) p q
  | seqNil {p : Nat} : Sem text (.sq []) p p
  | seqCons {i : RItem} {s : List RItem} {p r q : Nat}
      (h1 : Sem text (.it i) p r) (h2 : Sem text (.sq s) r q) :
      Sem text (.sq (i :: s)) p q
  | altHd {s : List RItem} {rest : List (List RItem)} {p q : Nat}
      (h : Sem text (.sq s) p q) : Sem text (.al (s :: rest)) p q
  | altTl {s : List RItem} {rest : List (List RItem)} {p q : Nat}
      (h : Sem text (.al rest) p q) : Sem text (.al (s :: rest)) p q

/-- The text at `start` begins with a match of the Program: the
token array rebuilds, and the structured Program matches some prefix
from `start`. -/
def HasMatchAt (tokens : List Token) (text : List Nat) (start : Nat) : Prop :=
  ∃ alt q, reconstruct tokens = some alt ∧ Sem text (.al alt) start q

/-- A chain of repetitions of a unit in which every repetition consumes
at least one byte; used to normalize repetition derivations when
reasoning about the matcher's refusal to re-enter an unbounded repeat
that consumed nothing. -/
inductive Chain (text : List Nat) (nd : RNode) : Nat → Nat → Prop where
  | refl {p : Nat} : Chain text nd p p
  | step {p r q : Nat} (h1 : Sem text (.nd nd) p r) (h2 : p < r)
      (h3 : Chain text nd r q) : Chain text nd p q

/-- ASCII digit test on a byte. -/
def isDigit (c : Nat) : Bool := 48 ≤ c && c ≤ 57

/-- ASCII letter-or-digit test on a byte. -/
def isAlnum (c : Nat) : Bool := isDigit c || (65 ≤ c && c ≤ 90) || (97 ≤ c && c ≤ 122)

/-- Modelled from the spec: single-byte escapes — control characters by
letter, and any escaped non-alphanumeric byte stands for itself; an
unknown alphanumeric escape is not a literal (the pattern is invalid
unless it is a class escape). -/
def escLit (c : Nat) : Option Nat :=
  if c = 110 then some 10
  else if c = 114 then some 13
  else if c = 116 then some 9
  else if c = 102 then some 12
  else if c = 118 then some 11
  else if c = 48 then some 0
  else if isAlnum c then none
  else some c

/-- Modelled from the spec: the common class escapes `d`, `w`, `s`
expanding to byte masks. -/
def classEsc (c : Nat) : Option (List Nat) :=
  if c = 100 then some maskDigits
  else if c = 119 then some maskWord
  else if c = 115 then some maskSpace
  else none

/-- Read a decimal number from the head of the input, returning the rest. -/
def readNum : List Nat → Nat → Nat × List Nat
  | [], acc => (acc, [])
  | c :: r, acc => if isDigit c then readNum r (acc * 10 + (c - 48)) else (acc, c :: r)

/-- Modelled from the spec: parse the inside of a brace quantifier
(after the opening brace): forms with a single count, a lower bound
only, and both bounds.  The bounds must fit the 16-bit token fields, the
upper bound may not be below the lower one (a malformed range), and a
bounded form whose stored upper bound would collide with the unbounded
sentinel 0 is rejected. -/
def readBraces (l : List Nat) : Except Int (Nat × Nat × List Nat) :=
  match readNum l 0 with
  | (n, rest1) =>
    match rest1 with
    | 125 :: r2 => if n = 0 ∨ 65535 < n then .error (-1) else .ok (n, n, r2)
    | 44 :: r2 =>
      match r2 with
      | 125 :: r3 => if 65535 < n then .error (-1) else .ok (n, 0, r3)
      | _ =>
        match readNum r2 0 with
        | (m, rest3) =>
          match rest3 with
          | 125 :: r4 => if m = 0 ∨ m < n ∨ 65535 < m then .error (-1) else .ok (n, m, r4)
          | _ => .error (-1)
    | _ => .error (-1)

/-- Modelled from the spec: parse the items of a bracketed class (after
the opening bracket and optional negation mark): plain bytes, byte
ranges (rejecting a reversed range as malformed), class escapes and
escaped literals, up to the closing bracket.  Returns the accumulated
mask and the rest of the pattern. -/
def parseClassItems : List Nat → List Nat → Except Int (List Nat × List Nat)
  | [], _ => .error (-1)
  | 93 :: rest, m => .ok (m, rest)
  | 92 :: e :: rest, m =>
    match classEsc e with
    | some cm => parseClassItems rest (maskUnion m cm)
    | none =>
      match escLit e with
      | some b => parseClassItems rest (maskSet m b)
      | none => .error (-1)
  | a :: 45 :: b :: rest, m =>
    if b = 93 then parseClassItems (b :: rest) (maskSet (maskSet m a) 45)
    else if a ≤ b then parseClassItems rest (maskRange m a b)
    else .error (-1)
  | a :: rest, m => parseClassItems rest (maskSet m a)

/-- A literal/class token with default single-repeat quantifier. -/
def normalTok (m : List Nat) (mode : Nat) : Token := ⟨KIND_NORMAL, mode, 1, 1, m, 0⟩

/-- A group-open token; the first mask word is repurposed to store the
group number. -/
def openTok (g : Nat) : Token := ⟨KIND_OPEN, 0, 1, 1, g :: List.replicate 15 0, 0⟩

/-- A group-close token carrying its group number and the signed offset
back to the matching open token. -/
def closeTok (g : Nat) (off : Int) : Token := ⟨KIND_CLOSE, 0, 1, 1, g :: List.replicate 15 0, off⟩

/-- An alternation-branch token. -/
def orTok : Token := ⟨KIND_OR, 0, 1, 1, maskEmpty, 0⟩

/-- A start-anchor token. -/
def caretTok : Token := ⟨KIND_CARET, 0, 1, 1, maskEmpty, 0⟩

/-- An end-anchor token. -/
def dollarTok : Token := ⟨KIND_DOLLAR, 0, 1, 1, maskEmpty, 0⟩

/-- Overwrite the quantifier bounds of the token at `idx`. -/
def setCounts (toks : List Token) (idx lo hi : Nat) : List Token :=
  toks.set idx { toks.getD idx dtok with count_lo := lo, count_hi := hi }

/-- Mark the token at `idx` lazy. -/
def setLazy (toks : List Token) (idx : Nat) : List Token :=
  toks.set idx { toks.getD idx dtok with mode := (toks.getD idx dtok).mode ||| MODE_LAZY }

/-- Overwrite the pair offset of the token at `idx`. -/
def setPair (toks : List Token) (idx : Nat) (v : Int) : List Token :=
  toks.set idx { toks.getD idx dtok with pair_offset := v }

/-- Link a pending alternation token (if any) to the position `idx` of
its successor branch or closing token. -/
def linkOr (toks : List Token) (prev : Option Nat) (idx : Nat) : List Token :=
  match prev with
  | none => toks
  | some j => setPair toks j ((idx : Int) - (j : Int))

/-- The group number stored in the first mask word of the token at `idx`. -/
def groupNumOf (toks : List Token) (idx : Nat) : Nat :=
  (toks.getD idx dtok).mask.getD 0 0

/-- One open-group marker on the compiler's scope stack: the index of
the open token and the last alternation token seen in this scope. -/
structure Frame where
  openIdx : Nat
  lastOr : Option Nat
  deriving Repr, DecidableEq

/-- The compiler's single-scan state: the tokens emitted so far, the
stack of open groups, the index of the most recently completed
quantifiable unit (if any), the number of groups opened, and the last
top-level alternation token. -/
structure PSt where
  toks : List Token
  stk : List Frame
  last : Option Nat
  gcount : Nat
  topOr : Option Nat
  deriving Repr, DecidableEq

/-- The initial compiler state. -/
def pst0 : PSt := ⟨[], [], none, 0, none⟩

/-- Modelled from the spec: the compiler's single left-to-right scan.
Literals, classes, anchors, group open and close and alternation marks emit
one token each, checking the declared capacity before every emission
(error -2 when it would be exceeded); a quantifier attaches to the most
recently completed quantifiable unit — a literal, class, or just-closed
group — and fails the pattern (-1) when none exists; groups are paired
through a stack, filling both pair offsets when the close is seen, with
unbalanced parentheses failing the pattern; a trailing question mark
after a quantifier marks it lazy. -/
def parsePat (cap : Nat) : Nat → List Nat → PSt → Except Int PSt
  | 0, _, _ => .error (-1)
  | _ + 1, [], st => if st.stk.isEmpty then .ok st else .error (-1)
  | fuel + 1, c :: rest, st =>
    if c = 40 then
      if st.toks.length < cap then
        parsePat cap fuel rest
          { toks := st.toks ++ [openTok st.gcount],
            stk := ⟨st.toks.length, none⟩ :: st.stk,
            last := none, gcount := st.gcount + 1, topOr := st.topOr }
      else .error (-2)
    else if c = 41 then
      match st.stk with
      | [] => .error (-1)
      | f :: stkRest =>
        if st.toks.length < cap then
          parsePat cap fuel rest
            { toks :=
                setPair (linkOr st.toks f.lastOr st.toks.length) f.openIdx
                    ((st.toks.length : Int) - (f.openIdx : Int)) ++
                  [closeTok (groupNumOf st.toks f.openIdx)
                    ((f.openIdx : Int) - (st.toks.length : Int))],
              stk := stkRest, last := some f.openIdx,
              gcount := st.gcount, topOr := st.topOr }
        else .error (-2)
    else if c = 124 then
      if st.toks.length < cap then
        match st.stk with
        | f :: stkRest =>
          parsePat cap fuel rest
            { toks := linkOr st.toks f.lastOr st.toks.length ++ [orTok],
              stk := ⟨f.openIdx, some st.toks.length⟩ :: stkRest,
              last := none, gcount := st.gcount, topOr := st.topOr }
        | [] =>
          parsePat cap fuel rest
            { toks := linkOr st.toks st.topOr st.toks.length ++ [orTok],
              stk := [], last := none, gcount := st.gcount,
              topOr := some st.toks.length }
      else .error (-2)
    else if c = 94 then
      if st.toks.length < cap then
        parsePat cap fuel rest { st with toks := st.toks ++ [caretTok], last := none }
      else .error (-2)
    else if c = 36 then
      if st.toks.length < cap then
        parsePat cap fuel rest { st with toks := st.toks ++ [dollarTok], last := none }
      else .error (-2)
    else if c = 46 then
      if st.toks.length < cap then
        parsePat cap fuel rest
          { st with toks := st.toks ++ [normalTok maskFull 0], last := some st.toks.length }
      else .error (-2)
    else if c = 42 ∨ c = 43 ∨ c = 63 ∨ c = 123 then
      match
        (if c = 42 then .ok (0, 0, rest)
         else if c = 43 then .ok (1, 0, rest)
         else if c = 63 then .ok (0, 1, rest)
         else readBraces rest :
          Except Int (Nat × Nat × List Nat)) with
      | .error _ => .error (-1)
      | .ok (lo, hi, rest1) =>
        match st.last with
        | none => .error (-1)
        | some idx =>
          match rest1 with
          | 63 :: rest2 =>
            parsePat cap fuel rest2
              { st with toks := setLazy (setCounts st.toks idx lo hi) idx, last := none }
          | _ =>
            parsePat cap fuel rest1
              { st with toks := setCounts st.toks idx lo hi, last := none }
    else if c = 92 then
      match rest with
      | [] => .error (-1)
      | e :: rest2 =>
        match classEsc e with
        | some m =>
          if st.toks.length < cap then
            parsePat cap fuel rest2
              { st with toks := st.toks ++ [normalTok m 0], last := some st.toks.length }
          else .error (-2)
        | none =>
          match escLit e with
          | some b =>
            if st.toks.length < cap then
              parsePat cap fuel rest2
                { st with
                    toks := st.toks ++ [normalTok (maskSet maskEmpty b) 0],
                    last := some st.toks.length }
            else .error (-2)
          | none => .error (-1)
    else if c = 91 then
      match
        (match rest with
         | 94 :: rest2 =>
           (parseClassItems rest2 maskEmpty).map (fun r => (r.1, r.2, MODE_INVERT))
         | _ => (parseClassItems rest maskEmpty).map (fun r => (r.1, r.2, 0)) :
          Except Int (List Nat × List Nat × Nat)) with
      | .error _ => .error (-1)
      | .ok (m, rest1, mode) =>
        if st.toks.length < cap then
          parsePat cap fuel rest1
            { st with toks := st.toks ++ [normalTok m mode], last := some st.toks.length }
        else .error (-2)
    else
      if st.toks.length < cap then
        parsePat cap fuel rest
          { st with
              toks := st.toks ++ [normalTok (maskSet maskEmpty c) 0],
              last := some st.toks.length }
      else .error (-2)

/-- `regex_parse` as declared in `src/lib/remimu.hxx`, modelled from the
spec: compile a null-terminated pattern into a token buffer of declared
capacity.  Returns 0 on success together with the used tokens (their
number is what is written back through `token_count`, zero for an empty
pattern), -1 for an invalid or unsupported or too-long pattern, and -2
when the declared buffer capacity would be exceeded. -/
def regex_parse (pattern : List Nat) (cap : Nat) : Int × List Token :=
  match parsePat cap (pattern.length + 1) pattern pst0 with
  | .ok st => (0, st.toks)
  | .error e => (e, [])

/-- The compiler's result invariant: a successful scan stays within the
declared capacity, and a failed scan reports one of the two documented
error codes. -/
def POk (cap : Nat) (r : Except Int PSt) : Prop :=
  match r with
  | .ok st => st.toks.length ≤ cap
  | .error e => e = -1 ∨ e = -2

/-- The documented invariant of a token's quantifier bounds: whenever
the upper bound is not the unbounded sentinel 0, it is at least the
lower bound. -/
def countsInv (t : Token) : Prop := t.count_hi ≠ 0 → t.count_lo ≤ t.count_hi

/-- A repeat count `n` fits a repetition job with `needed` mandatory
repeats and `ext` optional ones. -/
def RepOk (needed : Nat) (ext : Option Nat) (n : Nat) : Prop :=
  needed ≤ n ∧ ∀ x, ext = some x → n ≤ needed + x

/-- The declarative meaning of one search obligation. -/
def SemJob (text : List Nat) : MJob → Nat → Nat → Prop
  | .nd n, p, q => Sem text (.nd n) p q
  | .alts a, p, q => Sem text (.al a) p q
  | .seq s, p, q => Sem text (.sq s) p q
  | .item i, p, q => Sem text (.it i) p q
  | .rep nd needed ext _, p, q => ∃ n, RepOk needed ext n ∧ Sem text (.pw nd n) p q

/-- A continuation whose control outcome does not depend on the capture
state it is handed (the capture arrays are data the search writes, never
reads). -/
def kInd (k : MCont) : Prop := ∀ q cm cm', (k q cm).1 = (k q cm').1

/-- Capture state `b` agrees with `a` on every slot index from `slots`
upward (only lower slots may have been written). -/
def presFrom (slots : Nat) (a b : CapSt) : Prop :=
  ∀ i, slots ≤ i → b.1 i = a.1 i ∧ b.2 i = a.2 i

/-- The multi-byte continuation-byte test from the wininfo title scan in
`src/libwin/text.c`: `(text[offset] & '\xC0') == '\x80'`. -/
def isContinuationByte (b : Nat) : Bool := b &&& 192 == 128

/-- The unanchored title scan loop of `WinInfoWindowFound` in
`src/libwin/text.c`, abstracted over the per-offset match result: while
`offset <= cbtext`, skip continuation bytes, stop at the first offset
whose result is non-negative, otherwise advance one byte.  Returns the
offset where the scan stopped, if any.  Reading at the text length
yields 0, the null terminator, exactly as the C loop does. -/
def winInfoScanF (text : List Nat) (f : Nat → Int) (offset : Nat) : Option Nat :=
  if offset > text.length then none
  else if isContinuationByte (text.getD offset 0) then winInfoScanF text f (offset + 1)
  else if 0 ≤ f offset then some offset
  else winInfoScanF text f (offset + 1)
termination_by text.length + 1 - offset
decreasing_by all_goals omega

/-- The all-zero capture array (stand-in for an ignored output array). -/
def zcap : Nat → Int := fun _ => 0

/-- The regex branch of `WinInfoWindowFound` in `src/libwin/text.c`:
scan the window title bytes by repeating the anchored `regex_match`
call with zero capture slots at successive offsets; the window matches
when the scan stops anywhere. -/
def WinInfoTitleScan (toks : List Token) (text : List Nat) : Bool :=
  (winInfoScanF text
    (fun offset => regex_match toks text offset 0 zcap zcap) 0).isSome

/-- The size of the fixed token buffer `tokens[1024]` declared in
`WININFO_CONTEXT` in `src/libwin/text.c`. -/
def WININFO_TOKEN_CAPACITY : Nat := 1024

/-- Outcome of the wininfo entry point's regex setup. -/
inductive WinInfoInit where
  | ready (toks : List Token)
  | invalidRegex
  deriving Repr, DecidableEq

/-- The regex setup step of the wininfo entry point in
`src/libwin/text.c`: set `token_count = 1024`, call `regex_parse`, and
treat any nonzero result as the single fatal "invalid regex" failure;
no retry with a larger buffer is attempted. -/
def winInfoSetupRegex (pattern : List Nat) : WinInfoInit :=
  if (regex_parse pattern WININFO_TOKEN_CAPACITY).1 = 0 then
    .ready (regex_parse pattern WININFO_TOKEN_CAPACITY).2
  else .invalidRegex

/-- The pattern bytes of `(a*)*b|`: a nested unbounded quantifier
followed by an alternation with an empty second branch. -/
def cexPattern : List Nat := [40, 97, 42, 41, 42, 98, 124]

/-- The compiled tokens of `(a*)*b|`. -/
def cexTokens : List Token := (regex_parse cexPattern 64).2

/-- The pattern bytes of `(a*)*b`: nested unbounded quantifiers in
front of a literal that a long text of `a` bytes never contains. -/
def nestedPattern : List Nat := [40, 97, 42, 41, 42, 98]

/-- The compiled tokens of `(a*)*b`. -/
def nestedTokens : List Token := (regex_parse nestedPattern 64).2

/-- A long non-matching subject text: 300 `a` bytes. -/
def longAs : List Nat := List.replicate 300 97

theorem sem_mono {text : List Nat} {sh : Shape} {p q : Nat}
    (h : Sem text sh p q) : p ≤ q := by
  induction h <;> omega

theorem pow_succ_inv {text : List Nat} {nd : RNode} {k p q : Nat}
    (h : Sem text (.pw nd (k + 1)) p q) :
    ∃ r, Sem text (.nd nd) p r ∧ Sem text (.pw nd k) r q := by
  cases h with
  | powS h1 h2 => exact ⟨_, h1, h2⟩

theorem pow_zero_inv {text : List Nat} {nd : RNode} {p q : Nat}
    (h : Sem text (.pw nd 0) p q) : q = p := by
  cases h; rfl

theorem pow_to_chain {text : List Nat} {nd : RNode} {k p q : Nat}
    (h : Sem text (.pw nd k) p q) : Chain text nd p q := by
  induction k generalizing p with
  | zero => cases pow_zero_inv h; exact Chain.refl
  | succ k ih =>
    obtain ⟨r, h1, h2⟩ := pow_succ_inv h
    rcases Nat.lt_or_ge p r with hlt | hge
    · exact Chain.step h1 hlt (ih h2)
    · have : p = r := le_antisymm (sem_mono h1) hge
      subst this
      exact ih h2

theorem chain_to_pow {text : List Nat} {nd : RNode} {p q : Nat}
    (h : Chain text nd p q) : ∃ k, Sem text (.pw nd k) p q := by
  induction h with
  | refl => exact ⟨0, Sem.powZ⟩
  | step h1 _ _ ih =>
    obtain ⟨k, hk⟩ := ih
    exact ⟨k + 1, Sem.powS h1 hk⟩

theorem orR_eq_nomatch {r : MRes} {f : CapSt → MRes}
    (h : (orR r f).1 = Ctl.noMatch) :
    r.1 = Ctl.noMatch ∧ (f r.2).1 = Ctl.noMatch := by
  obtain ⟨c, cm⟩ := r
  cases c with
  | noMatch => exact ⟨rfl, h⟩
  | found e => simp [orR] at h
  | exhausted => simp [orR] at h

theorem orR_eq_found {r : MRes} {f : CapSt → MRes} {e : Nat} {cmo : CapSt}
    (h : orR r f = (Ctl.found e, cmo)) :
    r = (Ctl.found e, cmo) ∨ (r.1 = Ctl.noMatch ∧ f r.2 = (Ctl.found e, cmo)) := by
  obtain ⟨c, cm⟩ := r
  cases c with
  | noMatch => exact Or.inr ⟨rfl, h⟩
  | found e' => exact Or.inl h
  | exhausted => exact absurd h (by simp [orR])

theorem orR_ctl_congr {r r' : MRes} {f f' : CapSt → MRes}
    (hr : r.1 = r'.1) (hf : ∀ a b, (f a).1 = (f' b).1) :
    (orR r f).1 = (orR r' f').1 := by
  obtain ⟨c, cm⟩ := r
  obtain ⟨c', cm'⟩ := r'
  simp only at hr
  subst hr
  cases c <;> simp [orR, hf cm cm']

theorem mRun_ctlInd (text : List Nat) (slots : Nat) :
    ∀ fuel job p k, kInd k → ∀ cm cm',
      (mRun text slots fuel job p cm k).1 = (mRun text slots fuel job p cm' k).1 := by
  intro fuel
  induction fuel with
  | zero => intro job p k _ cm cm'; rfl
  | succ fuel ih =>
    intro job p k hk cm cm'
    rcases job with n | a | s | i | ⟨n, needed, ext, lz⟩
    · rcases n with ⟨m, neg⟩ | ⟨g, c⟩ | _ | _
      · simp only [mRun]
        split
        · exact hk _ cm cm'
        · rfl
      · simp only [mRun]
        exact ih (.alts g) p _ (fun q a b => hk q _ _) cm cm'
      · simp only [mRun]
        split
        · exact hk _ cm cm'
        · rfl
      · simp only [mRun]
        split
        · exact hk _ cm cm'
        · rfl
    · rcases a with _ | ⟨s, rest⟩
      · simp only [mRun]
      · simp only [mRun]
        exact orR_ctl_congr (ih (.seq s) p k hk cm cm')
          (fun a b => ih (.alts rest) p k hk a b)
    · rcases s with _ | ⟨i, s⟩
      · simp only [mRun]
        exact hk _ cm cm'
      · simp only [mRun]
        exact ih (.item i) p _ (fun q a b => ih (.seq s) q k hk a b) cm cm'
    · rcases i with ⟨n, lo, hi, lz⟩
      rcases hi with _ | h
      · simp only [mRun]
        exact ih (.rep n lo none lz) p k hk cm cm'
      · simp only [mRun]
        split
        · rfl
        · exact ih (.rep n lo (some (h - lo)) lz) p k hk cm cm'
    · rcases needed with _ | lo
      · rcases ext with _ | x
        · have hkk : kInd (fun q cm3 =>
              if p < q then mRun text slots fuel (.rep n 0 none lz) q cm3 k
              else (Ctl.noMatch, cm3)) := by
            intro q a b
            by_cases hpq : p < q
            · simp only [if_pos hpq]
              exact ih (.rep n 0 none lz) q k hk a b
            · simp only [if_neg hpq]
          simp only [mRun]
          cases lz
          · simp only [Bool.false_eq_true, if_false]
            exact orR_ctl_congr (ih (.nd n) p _ hkk cm cm') (fun a b => hk p a b)
          · simp only [if_true]
            exact orR_ctl_congr (hk p cm cm') (fun a b => ih (.nd n) p _ hkk a b)
        · rcases x with _ | e
          · simp only [mRun]
            exact hk _ cm cm'
          · have hkk : kInd (fun q cm3 =>
                mRun text slots fuel (.rep n 0 (some e) lz) q cm3 k) :=
              fun q a b => ih (.rep n 0 (some e) lz) q k hk a b
            simp only [mRun]
            cases lz
            · simp only [Bool.false_eq_true, if_false]
              exact orR_ctl_congr (ih (.nd n) p _ hkk cm cm') (fun a b => hk p a b)
            · simp only [if_true]
              exact orR_ctl_congr (hk p cm cm') (fun a b => ih (.nd n) p _ hkk a b)
      · simp only [mRun]
        exact ih (.nd n) p _
          (fun q a b => ih (.rep n lo ext lz) q k hk a b) cm cm'

theorem mRun_sound (text : List Nat) (slots : Nat) :
    ∀ fuel job p cm k e cmo,
      mRun text slots fuel job p cm k = (Ctl.found e, cmo) →
      ∃ q cm1, SemJob text job p q ∧ k q cm1 = (Ctl.found e, cmo) := by
  intro fuel
  induction fuel with
  | zero => intro job p cm k e cmo h; exact absurd h (by simp [mRun])
  | succ fuel ih =>
    intro job p cm k e cmo h
    rcases job with n | a | s | i | ⟨n, needed, ext, lz⟩
    · rcases n with ⟨m, neg⟩ | ⟨g, c⟩ | _ | _
      · simp only [mRun] at h
        split at h
        · rename_i hc
          exact ⟨p + 1, cm, Sem.cls hc.1 hc.2, h⟩
        · exact absurd h (by simp)
      · simp only [mRun] at h
        obtain ⟨q, cm1, hal, hk⟩ := ih (.alts g) p cm _ e cmo h
        exact ⟨q, writeCap slots c p (q - p) cm1, Sem.grp hal, hk⟩
      · simp only [mRun] at h
        split at h
        · rename_i hp
          subst hp
          exact ⟨0, cm, Sem.bol, h⟩
        · exact absurd h (by simp)
      · simp only [mRun] at h
        split at h
        · rename_i hp
          subst hp
          exact ⟨text.length, cm, Sem.eol, h⟩
        · exact absurd h (by simp)
    · rcases a with _ | ⟨s, rest⟩
      · simp only [mRun] at h
        exact absurd h (by simp)
      · simp only [mRun] at h
        rcases orR_eq_found h with h1 | ⟨_, h2⟩
        · obtain ⟨q, cm1, hs, hk⟩ := ih (.seq s) p cm k e cmo h1
          exact ⟨q, cm1, Sem.altHd hs, hk⟩
        · obtain ⟨q, cm1, hal, hk⟩ := ih (.alts rest) p _ k e cmo h2
          exact ⟨q, cm1, Sem.altTl hal, hk⟩
    · rcases s with _ | ⟨i, s⟩
      · simp only [mRun] at h
        exact ⟨p, cm, Sem.seqNil, h⟩
      · simp only [mRun] at h
        obtain ⟨r, cm1, hit, hcont⟩ := ih (.item i) p cm _ e cmo h
        obtain ⟨q, cm2, hs, hk⟩ := ih (.seq s) r cm1 k e cmo hcont
        exact ⟨q, cm2, Sem.seqCons hit hs, hk⟩
    · rcases i with ⟨n, lo, hi, lz⟩
      rcases hi with _ | hb
      · simp only [mRun] at h
        obtain ⟨q, cm1, ⟨nn, hrep, hpow⟩, hk⟩ := ih (.rep n lo none lz) p cm k e cmo h
        exact ⟨q, cm1, Sem.item hrep.1 trivial hpow, hk⟩
      · simp only [mRun] at h
        split at h
        · exact absurd h (by simp)
        · rename_i hble
          obtain ⟨q, cm1, ⟨nn, hrep, hpow⟩, hk⟩ :=
            ih (.rep n lo (some (hb - lo)) lz) p cm k e cmo h
          refine ⟨q, cm1, Sem.item hrep.1 ?_ hpow, hk⟩
          have := hrep.2 (hb - lo) rfl
          show nn ≤ hb
          omega
    · rcases needed with _ | lo
      · rcases ext with _ | x
        · simp only [mRun] at h
          cases lz
        -- continued below
          · simp only [Bool.false_eq_true, if_false] at h
            rcases orR_eq_found h with h1 | ⟨_, h2⟩
            · obtain ⟨r, cm1, hnd, hkk⟩ := ih (.nd n) p cm _ e cmo h1
              by_cases hpr : p < r
              · rw [if_pos hpr] at hkk
                obtain ⟨q, cm2, ⟨nn, hrep, hpow⟩, hk⟩ :=
                  ih (.rep n 0 none false) r cm1 k e cmo hkk
                exact ⟨q, cm2, ⟨nn + 1, ⟨Nat.zero_le _, fun x hx => by cases hx⟩,
                  Sem.powS hnd hpow⟩, hk⟩
              · rw [if_neg hpr] at hkk
                exact absurd hkk (by simp)
            · exact ⟨p, _, ⟨0, ⟨le_refl 0, fun x hx => by cases hx⟩, Sem.powZ⟩, h2⟩
          · simp only [if_true] at h
            rcases orR_eq_found h with h1 | ⟨_, h2⟩
            · exact ⟨p, cm, ⟨0, ⟨le_refl 0, fun x hx => by cases hx⟩, Sem.powZ⟩, h1⟩
            · obtain ⟨r, cm1, hnd, hkk⟩ := ih (.nd n) p _ _ e cmo h2
              by_cases hpr : p < r
              · rw [if_pos hpr] at hkk
                obtain ⟨q, cm2, ⟨nn, hrep, hpow⟩, hk⟩ :=
                  ih (.rep n 0 none true) r cm1 k e cmo hkk
                exact ⟨q, cm2, ⟨nn + 1, ⟨Nat.zero_le _, fun x hx => by cases hx⟩,
                  Sem.powS hnd hpow⟩, hk⟩
              · rw [if_neg hpr] at hkk
                exact absurd hkk (by simp)
        · rcases x with _ | e'
          · simp only [mRun] at h
            exact ⟨p, cm, ⟨0, ⟨le_refl 0, fun x hx => by omega⟩, Sem.powZ⟩, h⟩
          · simp only [mRun] at h
            cases lz
            · simp only [Bool.false_eq_true, if_false] at h
              rcases orR_eq_found h with h1 | ⟨_, h2⟩
              · obtain ⟨r, cm1, hnd, hkk⟩ := ih (.nd n) p cm _ e cmo h1
                obtain ⟨q, cm2, ⟨nn, hrep, hpow⟩, hk⟩ :=
                  ih (.rep n 0 (some e') false) r cm1 k e cmo hkk
                refine ⟨q, cm2, ⟨nn + 1, ⟨Nat.zero_le _, fun x hx => ?_⟩,
                  Sem.powS hnd hpow⟩, hk⟩
                have := hrep.2 e' rfl
                cases hx
                omega
              · exact ⟨p, _, ⟨0, ⟨le_refl 0, fun x hx => by omega⟩, Sem.powZ⟩, h2⟩
            · simp only [if_true] at h
              rcases orR_eq_found h with h1 | ⟨_, h2⟩
              · exact ⟨p, cm, ⟨0, ⟨le_refl 0, fun x hx => by omega⟩, Sem.powZ⟩, h1⟩
              · obtain ⟨r, cm1, hnd, hkk⟩ := ih (.nd n) p _ _ e cmo h2
                obtain ⟨q, cm2, ⟨nn, hrep, hpow⟩, hk⟩ :=
                  ih (.rep n 0 (some e') true) r cm1 k e cmo hkk
                refine ⟨q, cm2, ⟨nn + 1, ⟨Nat.zero_le _, fun x hx => ?_⟩,
                  Sem.powS hnd hpow⟩, hk⟩
                have := hrep.2 e' rfl
                cases hx
                omega
      · simp only [mRun] at h
        obtain ⟨r, cm1, hnd, hkk⟩ := ih (.nd n) p cm _ e cmo h
        obtain ⟨q, cm2, ⟨nn, ⟨hlo, hext⟩, hpow⟩, hk⟩ :=
          ih (.rep n lo ext lz) r cm1 k e cmo hkk
        refine ⟨q, cm2, ⟨nn + 1, ⟨by omega, fun x hx => ?_⟩, Sem.powS hnd hpow⟩, hk⟩
        have := hext x hx
        omega

theorem mRun_complete (text : List Nat) (slots : Nat) :
    ∀ fuel job p cm k,
      kInd k → (mRun text slots fuel job p cm k).1 = Ctl.noMatch →
      ∀ q, SemJob text job p q → ∀ cm', (k q cm').1 = Ctl.noMatch := by
  intro fuel
  induction fuel with
  | zero => intro job p cm k _ h; simp [mRun] at h
  | succ fuel ih =>
    intro job p cm k hk h q hsem cm'
    rcases job with n | a | s | i | ⟨n, needed, ext, lz⟩
    · rcases n with ⟨m, neg⟩ | ⟨g, c⟩ | _ | _
      · simp only [SemJob] at hsem
        simp only [mRun] at h
        split at h
        · cases hsem
          exact (hk (p + 1) cm' cm).trans h
        · rename_i hc
          cases hsem with
          | cls h1 h2 => exact absurd ⟨h1, h2⟩ hc
      · simp only [SemJob] at hsem
        simp only [mRun] at h
        cases hsem with
        | grp hal =>
          have hk' : kInd (fun q2 cm2 => k q2 (writeCap slots c p (q2 - p) cm2)) :=
            fun q2 a b => hk q2 _ _
          have := ih (.alts g) p cm _ hk' h q hal cm'
          exact (hk q cm' _).trans this
      · simp only [SemJob] at hsem
        simp only [mRun] at h
        split at h
        · rename_i hp
          subst hp
          cases hsem
          exact (hk 0 cm' cm).trans h
        · rename_i hp
          cases hsem
          exact absurd rfl hp
      · simp only [SemJob] at hsem
        simp only [mRun] at h
        split at h
        · rename_i hp
          subst hp
          cases hsem
          exact (hk text.length cm' cm).trans h
        · rename_i hp
          cases hsem
          exact absurd rfl hp
    · rcases a with _ | ⟨s, rest⟩
      · simp only [SemJob] at hsem
        cases hsem
      · simp only [SemJob] at hsem
        simp only [mRun] at h
        obtain ⟨hA, hB⟩ := orR_eq_nomatch h
        cases hsem with
        | altHd hs => exact ih (.seq s) p cm k hk hA q hs cm'
        | altTl hal => exact ih (.alts rest) p _ k hk hB q hal cm'
    · rcases s with _ | ⟨i, s⟩
      · simp only [SemJob] at hsem
        simp only [mRun] at h
        cases hsem
        exact (hk _ cm' cm).trans h
      · simp only [SemJob] at hsem
        simp only [mRun] at h
        cases hsem with
        | seqCons hit hs =>
          rename_i r
          have hk2 : kInd (fun r2 cm2 => mRun text slots fuel (.seq s) r2 cm2 k) :=
            fun r2 a b => mRun_ctlInd text slots fuel (.seq s) r2 k hk a b
          have hmid := ih (.item i) p cm _ hk2 h r hit cm'
          exact ih (.seq s) r cm' k hk hmid q hs cm'
    · rcases i with ⟨n, lo, hi, lz⟩
      simp only [SemJob] at hsem
      cases hsem with
      | item hlo hhi hpow =>
        rename_i kk
        rcases hi with _ | hb
        · simp only [mRun] at h
          exact ih (.rep n lo none lz) p cm k hk h q
            ⟨kk, ⟨hlo, fun x hx => by cases hx⟩, hpow⟩ cm'
        · simp only [hiOk] at hhi
          simp only [mRun] at h
          split at h
          · rename_i hblo
            omega
          · rename_i hblo
            exact ih (.rep n lo (some (hb - lo)) lz) p cm k hk h q
              ⟨kk, ⟨hlo, fun x hx => by cases hx; omega⟩, hpow⟩ cm'
    · simp only [SemJob] at hsem
      obtain ⟨nn, ⟨hlo, hext⟩, hpow⟩ := hsem
      rcases needed with _ | lo
      · rcases ext with _ | x
        · have hkg : kInd (fun r cm3 =>
              if p < r then mRun text slots fuel (.rep n 0 none lz) r cm3 k
              else (Ctl.noMatch, cm3)) := by
            intro r a b
            by_cases hpr : p < r
            · simp only [if_pos hpr]
              exact mRun_ctlInd text slots fuel (.rep n 0 none lz) r k hk a b
            · simp only [if_neg hpr]
          have hchain := pow_to_chain hpow
          simp only [mRun] at h
          cases lz
          · simp only [Bool.false_eq_true, if_false] at h
            obtain ⟨hA, hB⟩ := orR_eq_nomatch h
            cases hchain with
            | refl => exact (hk p cm' _).trans hB
            | step h1 h2 h3 =>
              rename_i r
              have hmid := ih (.nd n) p cm _ hkg hA r h1 cm'
              rw [if_pos h2] at hmid
              obtain ⟨nn2, hpow2⟩ := chain_to_pow h3
              exact ih (.rep n 0 none false) r cm' k hk hmid q
                ⟨nn2, ⟨Nat.zero_le _, fun x hx => by cases hx⟩, hpow2⟩ cm'
          · simp only [if_true] at h
            obtain ⟨hA, hB⟩ := orR_eq_nomatch h
            cases hchain with
            | refl => exact (hk p cm' cm).trans hA
            | step h1 h2 h3 =>
              rename_i r
              have hmid := ih (.nd n) p _ _ hkg hB r h1 cm'
              rw [if_pos h2] at hmid
              obtain ⟨nn2, hpow2⟩ := chain_to_pow h3
              exact ih (.rep n 0 none true) r cm' k hk hmid q
                ⟨nn2, ⟨Nat.zero_le _, fun x hx => by cases hx⟩, hpow2⟩ cm'
        · rcases x with _ | e
          · simp only [mRun] at h
            have hx := hext 0 rfl
            have : nn = 0 := by omega
            subst this
            cases pow_zero_inv hpow
            exact (hk p cm' cm).trans h
          · have hke : kInd (fun r cm3 =>
                mRun text slots fuel (.rep n 0 (some e) lz) r cm3 k) :=
              fun r a b => mRun_ctlInd text slots fuel (.rep n 0 (some e) lz) r k hk a b
            simp only [mRun] at h
            cases lz
            · simp only [Bool.false_eq_true, if_false] at h
              obtain ⟨hA, hB⟩ := orR_eq_nomatch h
              rcases nn with _ | nn'
              · cases pow_zero_inv hpow
                exact (hk p cm' _).trans hB
              · obtain ⟨r, h1, hpow2⟩ := pow_succ_inv hpow
                have hmid := ih (.nd n) p cm _ hke hA r h1 cm'
                have hx := hext (e + 1) rfl
                exact ih (.rep n 0 (some e) false) r cm' k hk hmid q
                  ⟨nn', ⟨Nat.zero_le _, fun x hx2 => by cases hx2; omega⟩, hpow2⟩ cm'
            · simp only [if_true] at h
              obtain ⟨hA, hB⟩ := orR_eq_nomatch h
              rcases nn with _ | nn'
              · cases pow_zero_inv hpow
                exact (hk p cm' cm).trans hA
              · obtain ⟨r, h1, hpow2⟩ := pow_succ_inv hpow
                have hmid := ih (.nd n) p _ _ hke hB r h1 cm'
                have hx := hext (e + 1) rfl
                exact ih (.rep n 0 (some e) true) r cm' k hk hmid q
                  ⟨nn', ⟨Nat.zero_le _, fun x hx2 => by cases hx2; omega⟩, hpow2⟩ cm'
      · simp only [mRun] at h
        have hkr : kInd (fun r cm3 =>
            mRun text slots fuel (.rep n lo ext lz) r cm3 k) :=
          fun r a b => mRun_ctlInd text slots fuel (.rep n lo ext lz) r k hk a b
        rcases nn with _ | nn'
        · omega
        · obtain ⟨r, h1, hpow2⟩ := pow_succ_inv hpow
          have hmid := ih (.nd n) p cm _ hkr h r h1 cm'
          exact ih (.rep n lo ext lz) r cm' k hk hmid q
            ⟨nn', ⟨by omega, fun x hx => by have := hext x hx; omega⟩, hpow2⟩ cm'

theorem presFrom_refl {slots : Nat} {cm : CapSt} : presFrom slots cm cm :=
  fun _ _ => ⟨rfl, rfl⟩

theorem presFrom_trans {slots : Nat} {a b c : CapSt}
    (h1 : presFrom slots a b) (h2 : presFrom slots b c) : presFrom slots a c :=
  fun i hi => ⟨(h2 i hi).1.trans (h1 i hi).1, (h2 i hi).2.trans (h1 i hi).2⟩

theorem writeCap_pres {slots g st len : Nat} {cm : CapSt} :
    presFrom slots cm (writeCap slots g st len cm) := by
  intro i hi
  unfold writeCap
  split
  · rename_i hg
    have : i ≠ g := by omega
    simp [this]
  · exact ⟨rfl, rfl⟩

theorem orR_pres {slots : Nat} {cm : CapSt} {r : MRes} {f : CapSt → MRes}
    (hr : presFrom slots cm r.2) (hf : ∀ a, presFrom slots a (f a).2) :
    presFrom slots cm (orR r f).2 := by
  obtain ⟨c, cmr⟩ := r
  cases c with
  | noMatch => exact presFrom_trans hr (hf cmr)
  | found e => exact hr
  | exhausted => exact hr

theorem mRun_pres (text : List Nat) (slots : Nat) :
    ∀ fuel job p cm k,
      (∀ q cm1, presFrom slots cm1 ((k q cm1).2)) →
      presFrom slots cm ((mRun text slots fuel job p cm k).2) := by
  intro fuel
  induction fuel with
  | zero => intro job p cm k _; exact presFrom_refl
  | succ fuel ih =>
    intro job p cm k hk
    rcases job with n | a | s | i | ⟨n, needed, ext, lz⟩
    · rcases n with ⟨m, neg⟩ | ⟨g, c⟩ | _ | _
      · simp only [mRun]
        split
        · exact hk _ cm
        · exact presFrom_refl
      · simp only [mRun]
        exact ih (.alts g) p cm _
          (fun q cm1 => presFrom_trans writeCap_pres (hk q _))
      · simp only [mRun]
        split
        · exact hk _ cm
        · exact presFrom_refl
      · simp only [mRun]
        split
        · exact hk _ cm
        · exact presFrom_refl
    · rcases a with _ | ⟨s, rest⟩
      · exact presFrom_refl
      · simp only [mRun]
        exact orR_pres (ih (.seq s) p cm k hk) (fun a => ih (.alts rest) p a k hk)
    · rcases s with _ | ⟨i, s⟩
      · simp only [mRun]
        exact hk _ cm
      · simp only [mRun]
        exact ih (.item i) p cm _ (fun q cm1 => ih (.seq s) q cm1 k hk)
    · rcases i with ⟨n, lo, hi, lz⟩
      rcases hi with _ | hb
      · simp only [mRun]
        exact ih (.rep n lo none lz) p cm k hk
      · simp only [mRun]
        split
        · exact presFrom_refl
        · exact ih (.rep n lo (some (hb - lo)) lz) p cm k hk
    · rcases needed with _ | lo
      · rcases ext with _ | x
        · have hkg : ∀ q cm1, presFrom slots cm1
              (((fun r cm3 =>
                if p < r then mRun text slots fuel (.rep n 0 none lz) r cm3 k
                else (Ctl.noMatch, cm3)) : MCont) q cm1).2 := by
            intro q cm1
            by_cases hpq : p < q
            · simp only [if_pos hpq]
              exact ih (.rep n 0 none lz) q cm1 k hk
            · simp only [if_neg hpq]
              exact presFrom_refl
          simp only [mRun]
          cases lz
          · simp only [Bool.false_eq_true, if_false]
            exact orR_pres (ih (.nd n) p cm _ hkg) (fun a => hk p a)
          · simp only [if_true]
            exact orR_pres (hk p cm) (fun a => ih (.nd n) p a _ hkg)
        · rcases x with _ | e
          · simp only [mRun]
            exact hk _ cm
          · have hke : ∀ q cm1, presFrom slots cm1
                ((mRun text slots fuel (.rep n 0 (some e) lz) q cm1 k).2) :=
              fun q cm1 => ih (.rep n 0 (some e) lz) q cm1 k hk
            simp only [mRun]
            cases lz
            · simp only [Bool.false_eq_true, if_false]
              exact orR_pres (ih (.nd n) p cm _ hke) (fun a => hk p a)
            · simp only [if_true]
              exact orR_pres (hk p cm) (fun a => ih (.nd n) p a _ hke)
      · simp only [mRun]
        exact ih (.nd n) p cm _ (fun q cm1 => ih (.rep n lo ext lz) q cm1 k hk)

@[simp]
theorem length_setCounts (toks : List Token) (idx lo hi : Nat) :
    (setCounts toks idx lo hi).length = toks.length := by
  simp [setCounts]

@[simp]
theorem length_setLazy (toks : List Token) (idx : Nat) :
    (setLazy toks idx).length = toks.length := by
  simp [setLazy]

@[simp]
theorem length_setPair (toks : List Token) (idx : Nat) (v : Int) :
    (setPair toks idx v).length = toks.length := by
  simp [setPair]

@[simp]
theorem length_linkOr (toks : List Token) (prev : Option Nat) (idx : Nat) :
    (linkOr toks prev idx).length = toks.length := by
  cases prev <;> simp [linkOr]

theorem parsePat_pok (cap : Nat) : ∀ fuel pat st, st.toks.length ≤ cap →
    POk cap (parsePat cap fuel pat st) := by
  intro fuel pat st
  induction fuel, pat, st using parsePat.induct cap <;> intro hlen <;>
    simp_all [parsePat, POk] <;>
    first
      | omega
      | (apply_assumption <;> omega)
      | (rw [if_neg (by omega)]; simp [POk])

theorem readBraces_ok_inv {l : List Nat} {lo hi : Nat} {r : List Nat}
    (h : readBraces l = .ok (lo, hi, r)) : hi ≠ 0 → lo ≤ hi := by
  unfold readBraces at h
  repeat' split at h
  all_goals simp_all
  all_goals omega

theorem quantSpec_inv {c : Nat} {rest rest1 : List Nat} {lo hi : Nat}
    (h : (if c = 42 then Except.ok (0, 0, rest)
          else if c = 43 then Except.ok (1, 0, rest)
          else if c = 63 then Except.ok (0, 1, rest)
          else readBraces rest : Except Int (Nat × Nat × List Nat)) =
        .ok (lo, hi, rest1)) :
    hi ≠ 0 → lo ≤ hi := by
  repeat' split at h
  all_goals first
    | exact readBraces_ok_inv h
    | (simp_all; omega)
    | simp_all

theorem countsInv_getD {toks : List Token} (i : Nat)
    (h : ∀ t ∈ toks, countsInv t) : countsInv (toks.getD i dtok) := by
  by_cases hi : i < toks.length
  · rw [List.getD_eq_getElem _ _ hi]
    exact h _ (List.getElem_mem hi)
  · rw [List.getD_eq_default _ _ (by omega)]
    intro hd
    exact absurd rfl hd

theorem countsInv_set {toks : List Token} {i : Nat} {x : Token}
    (h : ∀ t ∈ toks, countsInv t) (hx : countsInv x) :
    ∀ t ∈ toks.set i x, countsInv t := by
  intro t ht
  rcases List.mem_or_eq_of_mem_set ht with h1 | rfl
  · exact h t h1
  · exact hx

theorem countsInv_append {toks : List Token} {x : Token}
    (h : ∀ t ∈ toks, countsInv t) (hx : countsInv x) :
    ∀ t ∈ toks ++ [x], countsInv t := by
  intro t ht
  rcases List.mem_append.1 ht with h1 | h1
  · exact h t h1
  · rcases List.mem_singleton.1 h1 with rfl
    exact hx

theorem countsInv_setCounts {toks : List Token} {i lo hi : Nat}
    (h : ∀ t ∈ toks, countsInv t) (hb : hi ≠ 0 → lo ≤ hi) :
    ∀ t ∈ setCounts toks i lo hi, countsInv t :=
  countsInv_set h hb

theorem countsInv_setLazy {toks : List Token} {i : Nat}
    (h : ∀ t ∈ toks, countsInv t) :
    ∀ t ∈ setLazy toks i, countsInv t :=
  countsInv_set h (countsInv_getD i h)

theorem countsInv_setPair {toks : List Token} {i : Nat} {v : Int}
    (h : ∀ t ∈ toks, countsInv t) :
    ∀ t ∈ setPair toks i v, countsInv t :=
  countsInv_set h (countsInv_getD i h)

theorem countsInv_linkOr {toks : List Token} {prev : Option Nat} {i : Nat}
    (h : ∀ t ∈ toks, countsInv t) :
    ∀ t ∈ linkOr toks prev i, countsInv t := by
  cases prev with
  | none => exact h
  | some j => exact countsInv_setPair h

theorem countsInv_normalTok (m : List Nat) (mode : Nat) :
    countsInv (normalTok m mode) := fun _ => le_refl 1

theorem countsInv_openTok (g : Nat) : countsInv (openTok g) := fun _ => le_refl 1

theorem countsInv_closeTok (g : Nat) (off : Int) :
    countsInv (closeTok g off) := fun _ => le_refl 1

theorem countsInv_orTok : countsInv orTok := fun _ => le_refl 1

theorem countsInv_caretTok : countsInv caretTok := fun _ => le_refl 1

theorem countsInv_dollarTok : countsInv dollarTok := fun _ => le_refl 1

theorem parsePat_countsInv (cap : Nat) : ∀ fuel pat st,
    (∀ t ∈ st.toks, countsInv t) → ∀ st', parsePat cap fuel pat st = .ok st' →
    ∀ t ∈ st'.toks, countsInv t := by
  intro fuel pat st
  induction fuel, pat, st using parsePat.induct cap <;>
    (try rename_i ih) <;>
    intro hinv st' hok <;>
    first
      | (simp_all [parsePat]; done)
      | (simp_all [parsePat]; rw [if_neg (by omega)] at hok; simp at hok)
      | (revert ih
         simp_all [parsePat]
         intro ihr
         apply ihr
         first
           | exact countsInv_setCounts hinv (quantSpec_inv (by assumption))
           | exact countsInv_setLazy
               (countsInv_setCounts hinv (quantSpec_inv (by assumption)))
           | (intro t ht
              rcases ht with h | rfl
              · first
                  | exact hinv t h
                  | exact countsInv_setPair (countsInv_linkOr hinv) t h
                  | exact countsInv_linkOr hinv t h
              · first
                  | exact countsInv_openTok _
                  | exact countsInv_closeTok _ _
                  | exact countsInv_orTok
                  | exact countsInv_caretTok
                  | exact countsInv_dollarTok
                  | exact countsInv_normalTok _ _))

theorem parsePat_mono {cap cap' : Nat} (hcc : cap ≤ cap') : ∀ fuel pat st st',
    parsePat cap fuel pat st = .ok st' → parsePat cap' fuel pat st = .ok st' := by
  intro fuel pat st
  induction fuel, pat, st using parsePat.induct cap <;>
    (try rename_i ih) <;>
    intro st' hok <;>
    simp_all [parsePat] <;>
    first
      | rfl
      | omega
      | (rw [if_neg (by omega)] at hok; simp at hok)
      | exact ih

theorem winInfoScanF_some_iff (text : List Nat) (f : Nat → Int) :
    ∀ s i, winInfoScanF text f s = some i ↔
      (s ≤ i ∧ i ≤ text.length ∧ isContinuationByte (text.getD i 0) = false ∧ 0 ≤ f i ∧
        ∀ j, s ≤ j → j < i → isContinuationByte (text.getD j 0) = false → f j < 0) := by
  intro s
  induction s using winInfoScanF.induct text f with
  | case1 s hs =>
    intro i
    rw [winInfoScanF, if_pos hs]
    constructor
    · intro h
      exact absurd h (by simp)
    · intro ⟨h1, h2, _, _, _⟩
      omega
  | case2 s hs hcont ih =>
    intro i
    rw [winInfoScanF, if_neg hs, if_pos hcont, ih i]
    constructor
    · intro ⟨h1, h2, h3, h4, h5⟩
      refine ⟨by omega, h2, h3, h4, ?_⟩
      intro j hj1 hj2 hj3
      rcases Nat.eq_or_lt_of_le hj1 with rfl | hlt
      · exact absurd hj3 (by rw [hcont]; simp)
      · exact h5 j (by omega) hj2 hj3
    · intro ⟨h1, h2, h3, h4, h5⟩
      refine ⟨?_, h2, h3, h4, fun j hj1 hj2 hj3 => h5 j (by omega) hj2 hj3⟩
      rcases Nat.eq_or_lt_of_le h1 with rfl | hlt
      · exact absurd h3 (by rw [hcont]; simp)
      · omega
  | case3 s hs hcont hf =>
    intro i
    rw [winInfoScanF, if_neg hs, if_neg hcont, if_pos hf]
    constructor
    · intro h
      cases Option.some.inj h
      exact ⟨le_refl s, by omega, by simpa using hcont, hf, fun j hj1 hj2 _ => by omega⟩
    · intro ⟨h1, h2, h3, h4, h5⟩
      rcases Nat.eq_or_lt_of_le h1 with rfl | hlt
      · rfl
      · have := h5 s (le_refl s) hlt (by simpa using hcont)
        omega
  | case4 s hs hcont hf ih =>
    intro i
    rw [winInfoScanF, if_neg hs, if_neg hcont, if_neg hf, ih i]
    constructor
    · intro ⟨h1, h2, h3, h4, h5⟩
      refine ⟨by omega, h2, h3, h4, ?_⟩
      intro j hj1 hj2 hj3
      rcases Nat.eq_or_lt_of_le hj1 with rfl | hlt
      · omega
      · exact h5 j (by omega) hj2 hj3
    · intro ⟨h1, h2, h3, h4, h5⟩
      refine ⟨?_, h2, h3, h4, fun j hj1 hj2 hj3 => h5 j (by omega) hj2 hj3⟩
      rcases Nat.eq_or_lt_of_le h1 with rfl | hlt
      · omega
      · omega

theorem winInfoScanF_none_iff (text : List Nat) (f : Nat → Int) :
    ∀ s, winInfoScanF text f s = none ↔
      ∀ i, s ≤ i → i ≤ text.length → isContinuationByte (text.getD i 0) = false →
        f i < 0 := by
  intro s
  induction s using winInfoScanF.induct text f with
  | case1 s hs =>
    rw [winInfoScanF, if_pos hs]
    simp only [true_iff]
    intro i h1 h2
    omega
  | case2 s hs hcont ih =>
    rw [winInfoScanF, if_neg hs, if_pos hcont, ih]
    constructor
    · intro h i hi1 hi2 hi3
      rcases Nat.eq_or_lt_of_le hi1 with rfl | hlt
      · exact absurd hi3 (by rw [hcont]; simp)
      · exact h i (by omega) hi2 hi3
    · intro h i hi1 hi2 hi3
      exact h i (by omega) hi2 hi3
  | case3 s hs hcont hf =>
    rw [winInfoScanF, if_neg hs, if_neg hcont, if_pos hf]
    constructor
    · intro h
      exact absurd h (by simp)
    · intro h
      have := h s (le_refl s) (by omega) (by simpa using hcont)
      omega
  | case4 s hs hcont hf ih =>
    rw [winInfoScanF, if_neg hs, if_neg hcont, if_neg hf, ih]
    constructor
    · intro h i hi1 hi2 hi3
      rcases Nat.eq_or_lt_of_le hi1 with rfl | hlt
      · omega
      · exact h i (by omega) hi2 hi3
    · intro h i hi1 hi2 hi3
      exact h i (by omega) hi2 hi3

theorem winInfoScanF_congr (text : List Nat) (f g : Nat → Int)
    (hfg : ∀ o, 0 ≤ f o ↔ 0 ≤ g o) :
    ∀ s, winInfoScanF text f s = winInfoScanF text g s := by
  intro s
  induction s using winInfoScanF.induct text f with
  | case1 s hs =>
    conv_lhs => rw [winInfoScanF]
    conv_rhs => rw [winInfoScanF]
    simp only [if_pos hs]
  | case2 s hs hcont ih =>
    conv_lhs => rw [winInfoScanF]
    conv_rhs => rw [winInfoScanF]
    simp only [if_neg hs, if_pos hcont]
    exact ih
  | case3 s hs hcont hf =>
    conv_lhs => rw [winInfoScanF]
    conv_rhs => rw [winInfoScanF]
    simp only [if_neg hs, if_neg hcont]
    rw [if_pos hf, if_pos ((hfg s).1 hf)]
  | case4 s hs hcont hf ih =>
    conv_lhs => rw [winInfoScanF]
    conv_rhs => rw [winInfoScanF]
    simp only [if_neg hs, if_neg hcont]
    rw [if_neg hf, if_neg (fun hg => hf ((hfg s).2 hg))]
    exact ih

/-- C3: for every null-terminated pattern and declared token capacity,
`regex_parse` returns exactly one of 0 (success, with the number of
used tokens — at most the capacity — reported back through
`token_count`), -1 (invalid/unsupported/too-long pattern), or -2
(declared capacity would be exceeded, a distinct outcome so the caller
can reallocate and retry the identical pattern). -/
theorem claim_C3_parse_outcomes (pattern : List Nat) (cap : Nat) :
    ((regex_parse pattern cap).1 = 0 ∨ (regex_parse pattern cap).1 = -1 ∨
      (regex_parse pattern cap).1 = -2) ∧
    ((regex_parse pattern cap).1 = 0 → (regex_parse pattern cap).2.length ≤ cap) := by
  have h := parsePat_pok cap (pattern.length + 1) pattern pst0 (by simp [pst0])
  unfold regex_parse
  cases hp : parsePat cap (pattern.length + 1) pattern pst0 with
  | ok st =>
    rw [hp] at h
    simp only [POk] at h
    exact ⟨Or.inl rfl, fun _ => h⟩
  | error e =>
    rw [hp] at h
    simp only [POk] at h
    rcases h with h | h
    · exact ⟨Or.inr (Or.inl (by simp [h])), fun hc => by simp [h] at hc⟩
    · exact ⟨Or.inr (Or.inr (by simp [h])), fun hc => by simp [h] at hc⟩

/-- Witness for C3: a pattern of one literal byte compiles successfully
into a buffer of capacity 8 and uses at most 8 tokens. -/
theorem claim_C3_witness : (regex_parse [97] 8).2.length ≤ 8 :=
  (claim_C3_parse_outcomes [97] 8).2 (by decide)

/-- C4: the empty pattern is not an error — `regex_parse` succeeds and
reports zero used tokens — and the matcher treats the resulting
zero-token Program as matching the empty string, returning match
length 0, at every offset of every subject text. -/
theorem claim_C4_empty_pattern (cap : Nat) (text : List Nat) (start slots : Nat)
    (cp cs : Nat → Int) (hstart : start ≤ text.length) :
    (regex_parse [] cap).1 = 0 ∧ (regex_parse [] cap).2.length = 0 ∧
    regex_match (regex_parse [] cap).2 text start slots cp cs = 0 := by
  refine ⟨rfl, rfl, ?_⟩
  show ((start : Int) - (start : Int)) = 0
  omega

/-- Witness for C4: the empty pattern against the text `ab` at offset 2. -/
theorem claim_C4_witness :
    (regex_parse [] 4).1 = 0 ∧ (regex_parse [] 4).2.length = 0 ∧
    regex_match (regex_parse [] 4).2 [97, 98] 2 0 zcap zcap = 0 :=
  claim_C4_empty_pattern 4 [97, 98] 2 0 zcap zcap (by decide)

/-- C6: compilation is deterministic and side-effect-free — two
successful runs of `regex_parse` on the same pattern yield identical
Programs whatever the buffer capacities, and a successful compilation
still succeeds with the identical Program at any larger capacity, so
after a capacity failure a retry with an adequate buffer reproduces the
Program that full capacity would have produced. -/
theorem claim_C6_parse_deterministic :
    (∀ pattern c1 c2 t1 t2, regex_parse pattern c1 = (0, t1) →
      regex_parse pattern c2 = (0, t2) → t1 = t2) ∧
    (∀ pattern c t, regex_parse pattern c = (0, t) →
      ∀ c', c ≤ c' → regex_parse pattern c' = (0, t)) := by
  have key : ∀ pattern (c : Nat) t, regex_parse pattern c = (0, t) →
      ∀ c', c ≤ c' → regex_parse pattern c' = (0, t) := by
    intro pattern c t h c' hcc
    unfold regex_parse at h ⊢
    cases hp : parsePat c (pattern.length + 1) pattern pst0 with
    | ok st =>
      rw [hp] at h
      rw [parsePat_mono hcc _ _ _ _ hp]
      exact h
    | error e =>
      have hq := parsePat_pok c (pattern.length + 1) pattern pst0 (by simp [pst0])
      rw [hp] at h hq
      simp only [POk] at hq
      simp only [Prod.mk.injEq] at h
      rcases hq with h2 | h2 <;> (rw [h2] at h; simp at h)
  refine ⟨?_, key⟩
  intro pattern c1 c2 t1 t2 h1 h2
  have e1 := key pattern c1 t1 h1 (max c1 c2) (le_max_left c1 c2)
  have e2 := key pattern c2 t2 h2 (max c1 c2) (le_max_right c1 c2)
  have e3 : ((0 : Int), t1) = ((0 : Int), t2) := e1.symm.trans e2
  exact (Prod.ext_iff.1 e3).2

/-- Witness for C6: the one-literal pattern compiled at capacities 3
and 5 yields the same Program. -/
theorem claim_C6_witness : (regex_parse [97] 3).2 = (regex_parse [97] 5).2 :=
  claim_C6_parse_deterministic.1 [97] 3 5 _ _ (by decide) (by decide)

/-- C7: in every Program produced by a successful `regex_parse`, a
token's `count_hi = 0` is the sentinel the matcher interprets as "no
upper bound", and whenever `count_hi` is nonzero the invariant
`count_lo ≤ count_hi` holds. -/
theorem claim_C7_counts_invariant :
    (∀ t : Token, tokHi t = none ↔ t.count_hi = 0) ∧
    (∀ pattern cap toks, regex_parse pattern cap = (0, toks) →
      ∀ t ∈ toks, t.count_hi ≠ 0 → t.count_lo ≤ t.count_hi) := by
  constructor
  · intro t
    unfold tokHi
    split <;> simp_all
  · intro pattern cap toks h t ht
    unfold regex_parse at h
    cases hp : parsePat cap (pattern.length + 1) pattern pst0 with
    | ok st =>
      rw [hp] at h
      have hinv := parsePat_countsInv cap (pattern.length + 1) pattern pst0
        (by simp [pst0]) st hp
      simp only [Prod.mk.injEq] at h
      exact hinv t (h.2 ▸ ht)
    | error e =>
      rw [hp] at h
      simp only [Prod.mk.injEq] at h
      rw [← h.2] at ht
      simp at ht

/-- Witness for C7: the first token of the compiled `a{2,4}` has
`count_lo = 2 ≤ 4 = count_hi`. -/
theorem claim_C7_witness :
    ((regex_parse [97, 123, 50, 44, 52, 125] 8).2.getD 0 dtok).count_lo ≤
      ((regex_parse [97, 123, 50, 44, 52, 125] 8).2.getD 0 dtok).count_hi :=
  claim_C7_counts_invariant.2 [97, 123, 50, 44, 52, 125] 8
    ((regex_parse [97, 123, 50, 44, 52, 125] 8).2) (by decide) _
    (by decide) (by decide)

/-- C2: every call of `regex_match` returns (one of the four documented
outcomes — the search is a total function cut off by the fixed internal
recursion budget), and the pathological pattern `(a*)*b` — nested
unbounded quantifiers — matched against a long non-matching text of 300
`a` bytes yields the resource-exhaustion outcome -2 rather than
unbounded work or call depth. -/
theorem claim_C2_terminates_within_budget :
    (∀ tokens text start slots cp cs,
      regex_match tokens text start slots cp cs = -3 ∨
      regex_match tokens text start slots cp cs = -2 ∨
      regex_match tokens text start slots cp cs = -1 ∨
      0 ≤ regex_match tokens text start slots cp cs) ∧
    regex_match nestedTokens longAs 0 0 zcap zcap = -2 := by
  constructor
  · intro tokens text start slots cp cs
    cases hr : reconstruct tokens with
    | none =>
      refine Or.inl ?_
      simp [regex_match, regex_match_full, hr]
    | some alt =>
      rcases hm : mRun text slots REMIMU_BUDGET (.alts alt) start (cp, cs)
          (fun q cm => (Ctl.found q, cm)) with ⟨ctl, cm⟩
      cases ctl with
      | found e =>
        obtain ⟨q, cm1, hsem, hk⟩ :=
          mRun_sound text slots REMIMU_BUDGET (.alts alt) start (cp, cs) _ e cm hm
        have hq : q = e := Ctl.found.inj (congrArg Prod.fst hk)
        simp only [SemJob] at hsem
        have hmono := sem_mono hsem
        refine Or.inr (Or.inr (Or.inr ?_))
        simp only [regex_match, regex_match_full, hr, hm]
        omega
      | noMatch =>
        refine Or.inr (Or.inr (Or.inl ?_))
        simp [regex_match, regex_match_full, hr, hm]
      | exhausted =>
        refine Or.inr (Or.inl ?_)
        simp [regex_match, regex_match_full, hr, hm]
  · decide

/-- C8: `regex_match` writes at most the first `cap_slots` entries of
the capture arrays — every slot index at or above `cap_slots` still
holds its input value after the call, whatever the outcome — and when
`cap_slots` is zero the arrays are returned untouched. -/
theorem claim_C8_capture_bounds (tokens : List Token) (text : List Nat)
    (start slots : Nat) (cp cs : Nat → Int) :
    (∀ i, slots ≤ i →
      (regex_match_full tokens text start slots cp cs).2.1 i = cp i ∧
      (regex_match_full tokens text start slots cp cs).2.2 i = cs i) ∧
    (slots = 0 → (regex_match_full tokens text start slots cp cs).2 = (cp, cs)) := by
  have hpres : presFrom slots (cp, cs)
      ((regex_match_full tokens text start slots cp cs).2) := by
    unfold regex_match_full
    cases hr : reconstruct tokens with
    | none => exact presFrom_refl
    | some alt =>
      have h := mRun_pres text slots REMIMU_BUDGET (.alts alt) start (cp, cs)
        (fun q cm => (Ctl.found q, cm)) (fun q cm1 => presFrom_refl)
      rcases hm : mRun text slots REMIMU_BUDGET (.alts alt) start (cp, cs)
          (fun q cm => (Ctl.found q, cm)) with ⟨ctl, cm⟩
      rw [hm] at h
      cases ctl <;> (simp only [hm]; exact h)
  refine ⟨fun i hi => hpres i hi, fun h0 => ?_⟩
  subst h0
  exact Prod.ext (funext fun i => (hpres i (Nat.zero_le i)).1)
    (funext fun i => (hpres i (Nat.zero_le i)).2)

/-- Witness for C8: with zero capture slots against a one-byte text,
slot 5 of both arrays is untouched. -/
theorem claim_C8_witness :
    (regex_match_full [] [97] 0 0 zcap zcap).2.1 5 = zcap 5 ∧
    (regex_match_full [] [97] 0 0 zcap zcap).2.2 5 = zcap 5 :=
  (claim_C8_capture_bounds [] [97] 0 0 zcap zcap).1 5 (by decide)

/-- C1 counterexample: the well-formed Program compiled from `(a*)*b|`,
matched against 300 `a` bytes at offset 0 — an offset in range at which
the text does begin with a match, since the empty second alternative
matches with length 0 — returns the resource-exhaustion outcome -2, not
a non-negative length, refuting the claimed equivalence between
non-negative results and the existence of a match at the offset. -/
theorem claim_C1_counterexample :
    (reconstruct cexTokens).isSome = true ∧
    HasMatchAt cexTokens longAs 0 ∧
    regex_match cexTokens longAs 0 0 zcap zcap = -2 ∧
    ¬ 0 ≤ regex_match cexTokens longAs 0 0 zcap zcap := by
  have h2 : regex_match cexTokens longAs 0 0 zcap zcap = -2 := by decide
  refine ⟨by decide, ⟨_, 0, rfl, Sem.altTl (Sem.altHd Sem.seqNil)⟩, h2, ?_⟩
  rw [h2]
  decide

/-- C1 (amended): for every well-formed Program, subject text, and
start offset in range, `regex_match` returns exactly one of a
non-negative match length, -1, or -2 (never -3, which is reserved for
Programs that fail to rebuild); a non-negative value is returned only
if the text at the offset begins with a match of exactly that length;
and -1 is returned only if no match begins at the offset — while a -2
(budget exhausted) leaves the question undetermined. -/
theorem claim_C1_match_outcomes (tokens : List Token) (text : List Nat)
    (start slots : Nat) (cp cs : Nat → Int)
    (hwf : (reconstruct tokens).isSome = true) (hstart : start ≤ text.length) :
    (regex_match tokens text start slots cp cs = -1 ∨
     regex_match tokens text start slots cp cs = -2 ∨
     0 ≤ regex_match tokens text start slots cp cs) ∧
    (0 ≤ regex_match tokens text start slots cp cs →
      ∃ alt, reconstruct tokens = some alt ∧
        Sem text (.al alt) start
          (start + (regex_match tokens text start slots cp cs).toNat)) ∧
    (regex_match tokens text start slots cp cs = -1 →
      ¬ HasMatchAt tokens text start) := by
  obtain ⟨alt, halt⟩ := Option.isSome_iff_exists.1 hwf
  rcases hm : mRun text slots REMIMU_BUDGET (.alts alt) start (cp, cs)
      (fun q cm => (Ctl.found q, cm)) with ⟨ctl, cm⟩
  cases ctl with
  | found e =>
    obtain ⟨q, cm1, hsem, hk⟩ :=
      mRun_sound text slots REMIMU_BUDGET (.alts alt) start (cp, cs) _ e cm hm
    have hq : q = e := Ctl.found.inj (congrArg Prod.fst hk)
    simp only [SemJob] at hsem
    have hmono := sem_mono hsem
    subst hq
    have hval : regex_match tokens text start slots cp cs = (q : Int) - (start : Int) := by
      simp [regex_match, regex_match_full, halt, hm]
    refine ⟨Or.inr (Or.inr (by rw [hval]; omega)), ?_, ?_⟩
    · intro _
      refine ⟨alt, halt, ?_⟩
      have heq : start + (regex_match tokens text start slots cp cs).toNat = q := by
        rw [hval]
        omega
      rw [heq]
      exact hsem
    · intro habs
      rw [hval] at habs
      omega
  | noMatch =>
    have hval : regex_match tokens text start slots cp cs = -1 := by
      simp [regex_match, regex_match_full, halt, hm]
    refine ⟨Or.inl hval, ?_, ?_⟩
    · intro habs
      rw [hval] at habs
      omega
    · rintro _ ⟨alt', q, halt', hsem⟩
      rw [halt] at halt'
      cases Option.some.inj halt'
      have hcomp := mRun_complete text slots REMIMU_BUDGET (.alts alt) start (cp, cs)
        (fun q cm => (Ctl.found q, cm)) (fun q a b => rfl) (by rw [hm]) q hsem (cp, cs)
      exact absurd hcomp (by simp)
  | exhausted =>
    have hval : regex_match tokens text start slots cp cs = -2 := by
      simp [regex_match, regex_match_full, halt, hm]
    refine ⟨Or.inr (Or.inl hval), ?_, ?_⟩
    · intro habs
      rw [hval] at habs
      omega
    · intro habs
      rw [hval] at habs
      exact absurd habs (by decide)

/-- Witness for C1 (amended): the compiled pattern `a` against the text
`ab` at offset 0 lands in one of the three possible outcomes. -/
theorem claim_C1_witness :
    regex_match (regex_parse [97] 8).2 [97, 98] 0 0 zcap zcap = -1 ∨
    regex_match (regex_parse [97] 8).2 [97, 98] 0 0 zcap zcap = -2 ∨
    0 ≤ regex_match (regex_parse [97] 8).2 [97, 98] 0 0 zcap zcap :=
  (claim_C1_match_outcomes (regex_parse [97] 8).2 [97, 98] 0 0 zcap zcap
    (by decide) (by decide)).1

/-- C5: the wininfo title scan performs unanchored search in the
caller: it succeeds exactly when some offset up to and including the
text length, not pointing at a multi-byte continuation byte, yields a
non-negative anchored `regex_match` result; and the scan stops at an
offset exactly when that offset is the first non-continuation offset
with a non-negative result, every earlier non-continuation offset
having produced a negative one. -/
theorem claim_C5_unanchored_scan (toks : List Token) (text : List Nat) :
    (WinInfoTitleScan toks text = true ↔
      ∃ i, i ≤ text.length ∧ isContinuationByte (text.getD i 0) = false ∧
        0 ≤ regex_match toks text i 0 zcap zcap) ∧
    (∀ i, winInfoScanF text (fun o => regex_match toks text o 0 zcap zcap) 0 =
        some i ↔
      (i ≤ text.length ∧ isContinuationByte (text.getD i 0) = false ∧
        0 ≤ regex_match toks text i 0 zcap zcap ∧
        ∀ j, j < i → isContinuationByte (text.getD j 0) = false →
          regex_match toks text j 0 zcap zcap < 0)) := by
  have hsome := winInfoScanF_some_iff text
    (fun o => regex_match toks text o 0 zcap zcap)
  have hnone := winInfoScanF_none_iff text
    (fun o => regex_match toks text o 0 zcap zcap)
  constructor
  · unfold WinInfoTitleScan
    rw [Option.isSome_iff_exists]
    constructor
    · intro ⟨i, hi⟩
      obtain ⟨_, h2, h3, h4, _⟩ := (hsome 0 i).1 hi
      exact ⟨i, h2, h3, h4⟩
    · intro ⟨i, h2, h3, h4⟩
      rcases ho : winInfoScanF text
          (fun o => regex_match toks text o 0 zcap zcap) 0 with _ | a
      · exfalso
        have := (hnone 0).1 ho i (Nat.zero_le i) h2 h3
        omega
      · exact ⟨a, rfl⟩
  · intro i
    rw [hsome 0 i]
    constructor
    · intro ⟨_, h2, h3, h4, h5⟩
      exact ⟨h2, h3, h4, fun j hj hjc => h5 j (Nat.zero_le j) hj hjc⟩
    · intro ⟨h2, h3, h4, h5⟩
      exact ⟨Nat.zero_le i, h2, h3, h4, fun j _ hj hjc => h5 j hj hjc⟩

/-- C9: the wininfo title scan tests only whether a result is
non-negative, so any two per-offset result functions agreeing on signs
drive the scan identically, and in particular replacing a negative
result — resource exhaustion (-2) or invalid program (-3) — at one
offset by the no-match result -1 never changes the scan's behavior:
the loop simply advances to the next offset. -/
theorem claim_C9_negative_results_alike (text : List Nat) :
    (∀ f g : Nat → Int, (∀ o, 0 ≤ f o ↔ 0 ≤ g o) →
      ∀ s, winInfoScanF text f s = winInfoScanF text g s) ∧
    (∀ (f : Nat → Int) (o0 : Nat) (v : Int), v < 0 → f o0 < 0 →
      ∀ s, winInfoScanF text (fun o => if o = o0 then v else f o) s =
        winInfoScanF text f s) := by
  refine ⟨fun f g h => winInfoScanF_congr text f g h, ?_⟩
  intro f o0 v hv hf s
  apply winInfoScanF_congr
  intro o
  by_cases ho : o = o0
  · subst ho
    simp only [if_pos rfl]
    omega
  · simp [ho]

/-- Witness for C9: on a one-byte text, a scan seeing -2 everywhere
behaves like a scan seeing -1 everywhere. -/
theorem claim_C9_witness :
    winInfoScanF [97] (fun o => if o = 0 then (-2 : Int) else -1) 0 =
      winInfoScanF [97] (fun _ => (-1 : Int)) 0 :=
  (claim_C9_negative_results_alike [97]).2 (fun _ => -1) 0 (-2)
    (by decide) (by decide) 0

/-- C10: the wininfo driver compiles the pattern into its fixed buffer
of exactly 1024 tokens and treats every nonzero `regex_parse` result as
the same fatal invalid-regex failure, so the capacity outcome -2 is
never distinguished from the invalid-pattern outcome -1 and no retry
with a larger buffer occurs. -/
theorem claim_C10_fatal_invalid_regex :
    WININFO_TOKEN_CAPACITY = 1024 ∧
    (∀ p, (regex_parse p WININFO_TOKEN_CAPACITY).1 ≠ 0 →
      winInfoSetupRegex p = WinInfoInit.invalidRegex) ∧
    (∀ p q, (regex_parse p WININFO_TOKEN_CAPACITY).1 ≠ 0 →
      (regex_parse q WININFO_TOKEN_CAPACITY).1 ≠ 0 →
      winInfoSetupRegex p = winInfoSetupRegex q) := by
  refine ⟨rfl, ?_, ?_⟩
  · intro p hp
    unfold winInfoSetupRegex
    rw [if_neg hp]
  · intro p q hp hq
    unfold winInfoSetupRegex
    rw [if_neg hp, if_neg hq]

/-- A run of literal bytes longer than the remaining capacity overflows
the token buffer: the scan fails with the capacity outcome -2. -/
theorem parsePat_literal_overflow (cap : Nat) :
    ∀ n st, cap < st.toks.length + n + 1 →
      parsePat cap (n + 2) (97 :: List.replicate n 97) st = Except.error (-2) := by
  intro n
  induction n with
  | zero =>
    intro st h
    simp only [List.replicate_zero]
    simp only [parsePat]
    norm_num
    intro hlt
    exact absurd hlt (by omega)
  | succ n ih =>
    intro st h
    simp only [List.replicate_succ]
    show parsePat cap (n + 2 + 1) (97 :: 97 :: List.replicate n 97) st = Except.error (-2)
    rw [parsePat]
    norm_num
    intro hc
    apply ih
    simp only [List.length_append, List.length_cons, List.length_nil]
    omega

/-- A pattern of 1025 literal bytes overflows a 1024-token buffer:
`regex_parse` returns the capacity outcome -2. -/
theorem regex_parse_replicate_overflow :
    (regex_parse (List.replicate 1025 97) 1024).1 = -2 := by
  have h1 : List.replicate 1025 97 = 97 :: List.replicate 1024 97 := rfl
  have h2 : (List.replicate 1025 97).length + 1 = 1024 + 2 := by simp
  have h3 := parsePat_literal_overflow 1024 1024 pst0 (by simp [pst0])
  unfold regex_parse
  rw [h2, h1, h3]

/-- Witness for C10: the invalid pattern `(` (result -1) and a pattern
of 1025 literals overflowing the 1024-token buffer (result -2) are both
mapped to the same fatal invalid-regex outcome. -/
theorem claim_C10_witness :
    winInfoSetupRegex [40] = WinInfoInit.invalidRegex ∧
    winInfoSetupRegex (List.replicate 1025 97) = WinInfoInit.invalidRegex :=
  ⟨claim_C10_fatal_invalid_regex.2.1 [40] (by decide),
   claim_C10_fatal_invalid_regex.2.1 (List.replicate 1025 97)
     (by show (regex_parse (List.replicate 1025 97) 1024).1 ≠ 0
         rw [regex_parse_replicate_overflow]; decide)⟩

end Remimu
